import Mathlib

/-!
Shallow embedding of `src/slip.py`: a SLIP (RFC 1055) link layer.

Bytes are modelled as `Nat` (values 0..255), byte strings as `List Nat`.
Python's `bytes.replace` with a one- or two-byte pattern is embedded by
`replace1` / `replace2` (left-to-right, non-overlapping scan, the
replacement is never rescanned), and `bytes.split` with a one-byte
separator by `split1` (which, like Python's, always returns at least one
possibly empty segment).

`Enlace` keeps the mutable state of the Python class of the same name:
the optional registered callback and the receive buffer.  The serial
line is external; `Enlace.enviar` returns the frame handed to
`linha_serial.enviar`, and `Enlace.raw_recv` (the method `__raw_recv`)
returns the successor state together with the list of callback
invocations it performed, each as the argument passed and the outcome
(`Except.error` standing for a Python exception raised by the upper
layer, which the method's bare `except` swallows).
-/

/-- Protocol constant `END = b'\xc0'`. -/
def END : Nat := 0xc0

/-- Protocol constant `ESC = b'\xdb'`. -/
def ESC : Nat := 0xdb

/-- Protocol constant `ESC_END = b'\xdc'`. -/
def ESC_END : Nat := 0xdc

/-- Protocol constant `ESC_ESC = b'\xdd'`. -/
def ESC_ESC : Nat := 0xdd

/-- Python `s.replace(bytes([b]), w)` for a single-byte pattern `b`. -/
def replace1 (b : Nat) (w : List Nat) : List Nat → List Nat
  | [] => []
  | x :: s => if x = b then w ++ replace1 b w s else x :: replace1 b w s

/-- Python `s.replace(bytes([a, b]), w)` for a two-byte pattern `a, b`:
left-to-right, non-overlapping, the replacement is not rescanned. -/
def replace2 (a b : Nat) (w : List Nat) : List Nat → List Nat
  | x :: y :: s =>
    if x = a ∧ y = b then w ++ replace2 a b w s
    else x :: replace2 a b w (y :: s)
  | s => s

/-- Python `s.split(bytes([b]))`: the list of segments between occurrences
of `b`; always nonempty, segments may be empty. -/
def split1 (b : Nat) : List Nat → List (List Nat)
  | [] => [[]]
  | x :: s =>
    if x = b then [] :: split1 b s
    else
      match split1 b s with
      | [] => [[x]]
      | t :: ts => (x :: t) :: ts

/-- Python `quadros[-1]` (empty list gives `b''`, unreachable here since
`split1` is never empty). -/
def lastSeg : List (List Nat) → List Nat
  | [] => []
  | [t] => t
  | _ :: t :: ts => lastSeg (t :: ts)

/-- Python `quadros[:-1]`: all segments but the last. -/
def initSegs : List (List Nat) → List (List Nat)
  | [] => []
  | [_] => []
  | q :: t :: ts => q :: initSegs (t :: ts)

/-- The byte stuffing of `Enlace.enviar`:
`datagrama.replace(ESC, ESC+ESC_ESC).replace(END, ESC+ESC_END)`. -/
def byteStuff (datagrama : List Nat) : List Nat :=
  replace1 END [ESC, ESC_END] (replace1 ESC [ESC, ESC_ESC] datagrama)

/-- The per-frame unescaping of `Enlace.__raw_recv`:
`quadro_bruto.replace(ESC+ESC_END, END).replace(ESC+ESC_ESC, ESC)`. -/
def desfazerStuffing (quadro_bruto : List Nat) : List Nat :=
  replace2 ESC ESC_ESC [ESC] (replace2 ESC ESC_END [END] quadro_bruto)

/-- An upper-layer callback: returns `Except.error` when the Python
callable would raise. -/
abbrev Handler := List Nat → Except String Unit

/-- State of the Python class `Enlace`: the registered callback
(`self.callback`, `None` initially) and the receive buffer
(`self.buffer`, `b''` initially). -/
structure Enlace where
  callback : Option Handler
  buffer : List Nat

/-- `Enlace.__init__`: no callback registered, empty buffer. -/
def Enlace.init : Enlace := { callback := none, buffer := [] }

/-- `Enlace.registrar_recebedor`. -/
def Enlace.registrar_recebedor (E : Enlace) (cb : Handler) : Enlace :=
  { E with callback := some cb }

/-- `Enlace.enviar`: the frame handed to `linha_serial.enviar`, i.e.
`END + byte-stuffed datagram + END`. -/
def Enlace.enviar (datagrama : List Nat) : List Nat :=
  [END] ++ byteStuff datagrama ++ [END]

/-- The delivery loop of `Enlace.__raw_recv` over the complete segments:
empty segments are skipped (`continue`); every other segment is
unescaped and passed to the callback inside a `try`/`except` that
swallows any exception of the upper layer and continues with the next
segment.  Returns every invocation, in order, as (argument, outcome). -/
def processFrames (h : Handler) : List (List Nat) → List (List Nat × Except String Unit)
  | [] => []
  | q :: qs =>
    if q = [] then processFrames h qs
    else
      (desfazerStuffing q, h (desfazerStuffing q)) :: processFrames h qs

/-- `Enlace.__raw_recv`: returns early when no callback is registered;
otherwise appends the chunk to the buffer, splits on `END`, stores the
trailing segment back into the buffer and runs the delivery loop on the
complete segments.  The second component lists the callback invocations
performed. -/
def Enlace.raw_recv (E : Enlace) (dados : List Nat) :
    Enlace × List (List Nat × Except String Unit) :=
  match E.callback with
  | none => (E, [])
  | some h =>
    let quadros := split1 END (E.buffer ++ dados)
    ({ E with buffer := lastSeg quadros }, processFrames h (initSegs quadros))

/-- Feeding a sequence of chunks to `Enlace.raw_recv` in order,
collecting all callback invocations. -/
def runRecv : Enlace → List (List Nat) → Enlace × List (List Nat × Except String Unit)
  | E, [] => (E, [])
  | E, c :: cs =>
    let r := Enlace.raw_recv E c
    let r2 := runRecv r.1 cs
    (r2.1, r.2 ++ r2.2)

/-- Concatenation of a chunk sequence into the underlying byte stream. -/
def concatChunks : List (List Nat) → List Nat
  | [] => []
  | c :: cs => c ++ concatChunks cs

/-- State of the Python class `CamadaEnlace`: the address-to-Enlace
mapping (`self.enlaces`) and the registered upward callback. -/
structure CamadaEnlace where
  enlaces : List (String × Enlace)
  callback : Option Handler

/-- `CamadaEnlace.enviar`: `self.enlaces[next_hop].enviar(datagrama)`.
The dictionary lookup raises `KeyError` when `next_hop` is not a key;
nothing is mutated in either case, and on success the frame built by
`Enlace.enviar` is handed to that link's serial line. -/
def CamadaEnlace.enviar (C : CamadaEnlace) (datagrama : List Nat) (next_hop : String) :
    CamadaEnlace × Except String (List Nat) :=
  match C.enlaces.lookup next_hop with
  | none => (C, Except.error "KeyError")
  | some _ => (C, Except.ok (Enlace.enviar datagrama))

/-- A concrete upper layer that never raises. -/
def okHandler : Handler := fun _ => Except.ok ()

/-- Specification-side per-byte view of the encoder's escaping (ESC
escaped first, then END): `escByte` renders one payload byte. -/
def escByte (x : Nat) : List Nat :=
  if x = ESC then [ESC, ESC_ESC] else if x = END then [ESC, ESC_END] else [x]

/-- Specification-side escaping: concatenation of `escByte` over the
datagram. -/
def escapeSpec : List Nat → List Nat
  | [] => []
  | x :: s => escByte x ++ escapeSpec s

/-- Intermediate form: ESC-escaping only (the END-escaping undone). -/
def escByte1 (x : Nat) : List Nat :=
  if x = ESC then [ESC, ESC_ESC] else [x]

/-- Concatenation of `escByte1` over the datagram. -/
def escapeMid : List Nat → List Nat
  | [] => []
  | x :: s => escByte1 x ++ escapeMid s

/-- The suffix of a byte stream strictly after the last occurrence of
`b`, or the whole stream when `b` does not occur. -/
def suffixAfterLast (b : Nat) : List Nat → List Nat
  | [] => []
  | x :: s =>
    if b ∈ s then suffixAfterLast b s
    else if x = b then s else x :: s

/-- A frame body is well escaped when END never occurs in it and every
ESC is immediately followed by ESC_END or ESC_ESC. -/
def wellEscaped : List Nat → Bool
  | [] => true
  | [x] => decide (x ≠ END) && decide (x ≠ ESC)
  | x :: y :: s =>
    if x = END then false
    else if x = ESC then (decide (y = ESC_END) || decide (y = ESC_ESC)) && wellEscaped s
    else wellEscaped (y :: s)

/-- Helper for `hasUnescaped`: an occurrence of `b` whose predecessor
(`prev` for the head) is not ESC. -/
def hasUnescapedFrom (b prev : Nat) : List Nat → Bool
  | [] => false
  | x :: s => (decide (x = b) && decide (prev ≠ ESC)) || hasUnescapedFrom b x s

/-- `b` occurs in the list not immediately preceded by an ESC byte
(an occurrence at the head counts). -/
def hasUnescaped (b : Nat) : List Nat → Bool
  | [] => false
  | x :: s => decide (x = b) || hasUnescapedFrom b x s

/-! ### Encoder lemmas -/

theorem replace1_append (b : Nat) (w u v : List Nat) :
    replace1 b w (u ++ v) = replace1 b w u ++ replace1 b w v := by
  induction u with
  | nil => rfl
  | cons x s ih => by_cases hx : x = b <;> simp [replace1, hx, ih]

theorem byteStuff_cons (x : Nat) (s : List Nat) :
    byteStuff (x :: s) = escByte x ++ byteStuff s := by
  by_cases hx : x = ESC
  · subst hx
    simp [byteStuff, replace1, replace1_append, escByte, ESC, END, ESC_ESC, ESC_END]
  · by_cases hx2 : x = END
    · subst hx2
      simp [byteStuff, replace1, replace1_append, escByte, hx, ESC, END, ESC_ESC, ESC_END]
    · simp [byteStuff, replace1, escByte, hx, hx2]

theorem byteStuff_eq_escapeSpec (d : List Nat) : byteStuff d = escapeSpec d := by
  induction d with
  | nil => rfl
  | cons x s ih => rw [byteStuff_cons, ih]; rfl

theorem replace2_cons_ne (a b : Nat) (w : List Nat) (x : Nat) (s : List Nat) (hx : x ≠ a) :
    replace2 a b w (x :: s) = x :: replace2 a b w s := by
  cases s with
  | nil => rfl
  | cons y t => simp [replace2, hx]

theorem replace2_cons_pair (a b : Nat) (w s : List Nat) :
    replace2 a b w (a :: b :: s) = w ++ replace2 a b w s := by
  simp [replace2]

theorem unstuff_end (d : List Nat) :
    replace2 ESC ESC_END [END] (escapeSpec d) = escapeMid d := by
  induction d with
  | nil => rfl
  | cons x s ih =>
    by_cases hx : x = ESC
    · subst hx
      have h1 : escapeSpec (ESC :: s) = ESC :: ESC_ESC :: escapeSpec s := by
        simp [escapeSpec, escByte]
      have h2 : replace2 ESC ESC_END [END] (ESC :: ESC_ESC :: escapeSpec s)
          = ESC :: replace2 ESC ESC_END [END] (ESC_ESC :: escapeSpec s) := by
        simp [replace2, ESC_ESC, ESC_END]
      rw [h1, h2, replace2_cons_ne _ _ _ _ _ (by decide), ih]
      simp [escapeMid, escByte1]
    · by_cases hx2 : x = END
      · subst hx2
        have h1 : escapeSpec (END :: s) = ESC :: ESC_END :: escapeSpec s := by
          simp [escapeSpec, escByte, END, ESC]
        rw [h1, replace2_cons_pair, ih]
        simp [escapeMid, escByte1, END, ESC]
      · have h1 : escapeSpec (x :: s) = x :: escapeSpec s := by
          simp [escapeSpec, escByte, hx, hx2]
        rw [h1, replace2_cons_ne _ _ _ _ _ hx, ih]
        simp [escapeMid, escByte1, hx]

theorem unstuff_esc (d : List Nat) :
    replace2 ESC ESC_ESC [ESC] (escapeMid d) = d := by
  induction d with
  | nil => rfl
  | cons x s ih =>
    by_cases hx : x = ESC
    · subst hx
      have h1 : escapeMid (ESC :: s) = ESC :: ESC_ESC :: escapeMid s := by
        simp [escapeMid, escByte1]
      rw [h1, replace2_cons_pair, ih]
      rfl
    · have h1 : escapeMid (x :: s) = x :: escapeMid s := by
        simp [escapeMid, escByte1, hx]
      rw [h1, replace2_cons_ne _ _ _ _ _ hx, ih]

theorem desfazer_byteStuff (d : List Nat) : desfazerStuffing (byteStuff d) = d := by
  rw [byteStuff_eq_escapeSpec]
  show replace2 ESC ESC_ESC [ESC] (replace2 ESC ESC_END [END] (escapeSpec d)) = d
  rw [unstuff_end, unstuff_esc]

theorem end_not_mem_escByte (x : Nat) : END ∉ escByte x := by
  by_cases h1 : x = ESC
  · subst h1; decide
  · by_cases h2 : x = END
    · subst h2; decide
    · unfold escByte
      rw [if_neg h1, if_neg h2]
      simp
      exact fun h => h2 h.symm

theorem end_not_mem_escapeSpec (d : List Nat) : END ∉ escapeSpec d := by
  induction d with
  | nil => simp [escapeSpec]
  | cons x s ih =>
    simp only [escapeSpec]
    intro h
    rcases List.mem_append.mp h with h | h
    · exact end_not_mem_escByte x h
    · exact ih h

theorem escByte_ne_nil (x : Nat) : escByte x ≠ [] := by
  by_cases h1 : x = ESC
  · subst h1; decide
  · by_cases h2 : x = END
    · subst h2; decide
    · unfold escByte
      rw [if_neg h1, if_neg h2]
      simp

theorem escapeSpec_ne_nil (d : List Nat) (hd : d ≠ []) : escapeSpec d ≠ [] := by
  cases d with
  | nil => exact absurd rfl hd
  | cons x s =>
    simp only [escapeSpec]
    exact fun h => escByte_ne_nil x (List.append_eq_nil.mp h).1

/-! ### Split and segment lemmas -/

theorem split1_ne_nil (b : Nat) (l : List Nat) : split1 b l ≠ [] := by
  cases l with
  | nil => simp [split1]
  | cons x s =>
    simp only [split1]
    split
    · simp
    · split <;> simp

theorem not_mem_of_mem_split1 (b : Nat) (l : List Nat) :
    ∀ t ∈ split1 b l, b ∉ t := by
  induction l with
  | nil =>
    intro t ht
    simp [split1] at ht
    subst ht
    simp
  | cons x s ih =>
    intro t ht
    simp only [split1] at ht
    by_cases hx : x = b
    · rw [if_pos hx] at ht
      rcases List.mem_cons.mp ht with h | h
      · subst h; simp
      · exact ih t h
    · rw [if_neg hx] at ht
      cases hs : split1 b s with
      | nil => exact absurd hs (split1_ne_nil b s)
      | cons t0 ts =>
        rw [hs] at ht
        simp only [] at ht
        rcases List.mem_cons.mp ht with h | h
        · subst h
          intro hmem
          rcases List.mem_cons.mp hmem with h1 | h1
          · exact hx h1.symm
          · exact ih t0 (by rw [hs]; exact List.mem_cons_self t0 ts) h1
        · exact ih t (by rw [hs]; exact List.mem_cons_of_mem t0 h)

theorem split1_of_not_mem (b : Nat) (l : List Nat) (h : b ∉ l) : split1 b l = [l] := by
  induction l with
  | nil => rfl
  | cons x s ih =>
    have hx : x ≠ b := fun hh => h (hh ▸ List.mem_cons_self x s)
    have hs : b ∉ s := fun hh => h (List.mem_cons_of_mem x hh)
    simp only [split1, if_neg hx, ih hs]

/-- Prepend a byte string onto the first segment of a segment list. -/
def prependHead (u : List Nat) : List (List Nat) → List (List Nat)
  | [] => [u]
  | t :: ts => (u ++ t) :: ts

theorem prependHead_nil_left (L : List (List Nat)) (h : L ≠ []) : prependHead [] L = L := by
  cases L with
  | nil => exact absurd rfl h
  | cons t ts => simp [prependHead]

theorem split1_append_not_mem (b : Nat) (u v : List Nat) (hu : b ∉ u) :
    split1 b (u ++ v) = prependHead u (split1 b v) := by
  induction u with
  | nil => simp [prependHead_nil_left _ (split1_ne_nil b v)]
  | cons x s ih =>
    have hx : x ≠ b := fun hh => hu (hh ▸ List.mem_cons_self x s)
    have hs : b ∉ s := fun hh => hu (List.mem_cons_of_mem x hh)
    rw [List.cons_append]
    simp only [split1, if_neg hx, ih hs]
    cases hv : split1 b v with
    | nil => exact absurd hv (split1_ne_nil b v)
    | cons t ts => simp [prependHead]

theorem split1_append (b : Nat) (u v : List Nat) :
    split1 b (u ++ v) =
      initSegs (split1 b u) ++ prependHead (lastSeg (split1 b u)) (split1 b v) := by
  induction u with
  | nil =>
    simp [split1, initSegs, lastSeg, prependHead_nil_left _ (split1_ne_nil b v)]
  | cons x s ih =>
    rw [List.cons_append]
    by_cases hx : x = b
    · simp only [split1, if_pos hx, ih]
      cases hS : split1 b s with
      | nil => exact absurd hS (split1_ne_nil b s)
      | cons t ts => simp [initSegs, lastSeg]
    · simp only [split1, if_neg hx, ih]
      cases hS : split1 b s with
      | nil => exact absurd hS (split1_ne_nil b s)
      | cons t ts =>
        cases hv : split1 b v with
        | nil => exact absurd hv (split1_ne_nil b v)
        | cons h0 tv =>
          cases ts with
          | nil => simp [initSegs, lastSeg, prependHead]
          | cons t' ts' => simp [initSegs, lastSeg, prependHead]

theorem lastSeg_cons_of_ne_nil (q : List Nat) (L : List (List Nat)) (h : L ≠ []) :
    lastSeg (q :: L) = lastSeg L := by
  cases L with
  | nil => exact absurd rfl h
  | cons t ts => rfl

theorem initSegs_cons_of_ne_nil (q : List Nat) (L : List (List Nat)) (h : L ≠ []) :
    initSegs (q :: L) = q :: initSegs L := by
  cases L with
  | nil => exact absurd rfl h
  | cons t ts => rfl

theorem lastSeg_append (A M : List (List Nat)) (h : M ≠ []) :
    lastSeg (A ++ M) = lastSeg M := by
  induction A with
  | nil => rfl
  | cons q A ih =>
    rw [List.cons_append,
      lastSeg_cons_of_ne_nil _ _ (fun hh => h (List.append_eq_nil.mp hh).2), ih]

theorem initSegs_append (A M : List (List Nat)) (h : M ≠ []) :
    initSegs (A ++ M) = A ++ initSegs M := by
  induction A with
  | nil => rfl
  | cons q A ih =>
    rw [List.cons_append,
      initSegs_cons_of_ne_nil _ _ (fun hh => h (List.append_eq_nil.mp hh).2), ih,
      List.cons_append]

theorem lastSeg_mem (L : List (List Nat)) (h : L ≠ []) : lastSeg L ∈ L := by
  induction L with
  | nil => exact absurd rfl h
  | cons t ts ih =>
    cases ts with
    | nil => simp [lastSeg]
    | cons t' ts' =>
      rw [lastSeg_cons_of_ne_nil _ _ (by simp)]
      exact List.mem_cons_of_mem _ (ih (by simp))

/-! ### Receive-path lemmas -/

theorem processFrames_append (h : Handler) (A B : List (List Nat)) :
    processFrames h (A ++ B) = processFrames h A ++ processFrames h B := by
  induction A with
  | nil => rfl
  | cons q qs ih => by_cases hq : q = [] <;> simp [processFrames, hq, ih]

theorem processFrames_map_fst (h h' : Handler) (L : List (List Nat)) :
    (processFrames h L).map Prod.fst = (processFrames h' L).map Prod.fst := by
  induction L with
  | nil => rfl
  | cons q qs ih => by_cases hq : q = [] <;> simp [processFrames, hq, ih]

theorem raw_recv_some (h : Handler) (B dados : List Nat) :
    Enlace.raw_recv { callback := some h, buffer := B } dados =
      ({ callback := some h, buffer := lastSeg (split1 END (B ++ dados)) },
       processFrames h (initSegs (split1 END (B ++ dados)))) := rfl

theorem runRecv_none (B : List Nat) (cs : List (List Nat)) :
    runRecv { callback := none, buffer := B } cs
      = ({ callback := none, buffer := B }, []) := by
  induction cs with
  | nil => rfl
  | cons c cs ih => simp [runRecv, Enlace.raw_recv, ih]

theorem runRecv_eq (h : Handler) (B : List Nat) (cs : List (List Nat)) (hB : END ∉ B) :
    runRecv { callback := some h, buffer := B } cs =
      ({ callback := some h, buffer := lastSeg (split1 END (B ++ concatChunks cs)) },
       processFrames h (initSegs (split1 END (B ++ concatChunks cs)))) := by
  induction cs generalizing B with
  | nil =>
    simp [runRecv, concatChunks, split1_of_not_mem END B hB, lastSeg, initSegs,
      processFrames]
  | cons c cs ih =>
    have hL : END ∉ lastSeg (split1 END (B ++ c)) :=
      not_mem_of_mem_split1 END (B ++ c) _ (lastSeg_mem _ (split1_ne_nil END (B ++ c)))
    have step : runRecv { callback := some h, buffer := B } (c :: cs) =
        ((runRecv { callback := some h, buffer := lastSeg (split1 END (B ++ c)) } cs).1,
         processFrames h (initSegs (split1 END (B ++ c))) ++
           (runRecv { callback := some h, buffer := lastSeg (split1 END (B ++ c)) } cs).2) := by
      simp [runRecv, raw_recv_some]
    rw [step, ih _ hL]
    have key : split1 END ((B ++ c) ++ concatChunks cs) =
        initSegs (split1 END (B ++ c)) ++
          split1 END (lastSeg (split1 END (B ++ c)) ++ concatChunks cs) := by
      rw [split1_append END (B ++ c) (concatChunks cs),
        split1_append_not_mem END _ _ hL]
    have hcc : concatChunks (c :: cs) = c ++ concatChunks cs := rfl
    rw [hcc, ← List.append_assoc, key,
      lastSeg_append _ _ (split1_ne_nil END _),
      initSegs_append _ _ (split1_ne_nil END _),
      processFrames_append]

theorem split1_enviar (d : List Nat) :
    split1 END (Enlace.enviar d) = [[], byteStuff d, []] := by
  have hB : END ∉ byteStuff d := by
    rw [byteStuff_eq_escapeSpec]
    exact end_not_mem_escapeSpec d
  show split1 END ([END] ++ byteStuff d ++ [END]) = _
  rw [List.append_assoc]
  rw [show ([END] ++ (byteStuff d ++ [END])) = END :: (byteStuff d ++ [END]) from rfl]
  rw [show split1 END (END :: (byteStuff d ++ [END]))
      = [] :: split1 END (byteStuff d ++ [END]) from by simp [split1]]
  rw [split1_append_not_mem END _ _ hB]
  rw [show split1 END [END] = [[], []] from rfl]
  simp [prependHead]

/-! ### Buffer-suffix lemmas -/

theorem suffixAfterLast_of_not_mem (b : Nat) (l : List Nat) (h : b ∉ l) :
    suffixAfterLast b l = l := by
  induction l with
  | nil => rfl
  | cons x s ih =>
    have hx : x ≠ b := fun hh => h (hh ▸ List.mem_cons_self x s)
    have hs : b ∉ s := fun hh => h (List.mem_cons_of_mem x hh)
    simp [suffixAfterLast, hs, hx]

theorem split1_length_two_le (b : Nat) (l : List Nat) (h : b ∈ l) :
    2 ≤ (split1 b l).length := by
  induction l with
  | nil => simp at h
  | cons x s ih =>
    by_cases hx : x = b
    · rw [show split1 b (x :: s) = [] :: split1 b s from by simp [split1, hx]]
      cases hS : split1 b s with
      | nil => exact absurd hS (split1_ne_nil b s)
      | cons t ts => simp
    · have hbs : b ∈ s := by
        rcases List.mem_cons.mp h with h1 | h1
        · exact absurd h1.symm hx
        · exact h1
      cases hS : split1 b s with
      | nil => exact absurd hS (split1_ne_nil b s)
      | cons t ts =>
        rw [show split1 b (x :: s) = (x :: t) :: ts from by simp [split1, hx, hS]]
        have h2 := ih hbs
        rw [hS] at h2
        simpa using h2

theorem lastSeg_split1 (b : Nat) (l : List Nat) :
    lastSeg (split1 b l) = suffixAfterLast b l := by
  induction l with
  | nil => rfl
  | cons x s ih =>
    by_cases hx : x = b
    · rw [show split1 b (x :: s) = [] :: split1 b s from by simp [split1, hx],
        lastSeg_cons_of_ne_nil _ _ (split1_ne_nil b s), ih]
      by_cases hs : b ∈ s
      · simp [suffixAfterLast, hs]
      · simp [suffixAfterLast, hs, hx, suffixAfterLast_of_not_mem b s hs]
    · by_cases hs : b ∈ s
      · have h2 := split1_length_two_le b s hs
        cases hS : split1 b s with
        | nil => exact absurd hS (split1_ne_nil b s)
        | cons t ts =>
          cases ts with
          | nil => rw [hS] at h2; simp at h2
          | cons t' ts' =>
            rw [show split1 b (x :: s) = (x :: t) :: t' :: ts'
                from by simp [split1, hx, hS]]
            rw [hS] at ih
            rw [show lastSeg ((x :: t) :: t' :: ts') = lastSeg (t :: t' :: ts') from rfl, ih]
            simp [suffixAfterLast, hs]
      · rw [show split1 b (x :: s) = [x :: s]
            from by simp [split1, hx, split1_of_not_mem b s hs]]
        simp [lastSeg, suffixAfterLast, hs, hx]

/-! ### Well-escapedness lemmas -/

theorem wellEscaped_cons_other (x : Nat) (t : List Nat) (h1 : x ≠ END) (h2 : x ≠ ESC) :
    wellEscaped (x :: t) = wellEscaped t := by
  cases t with
  | nil => simp [wellEscaped, h1, h2]
  | cons y s => simp [wellEscaped, h1, h2]

theorem wellEscaped_escapeSpec (d : List Nat) : wellEscaped (escapeSpec d) = true := by
  induction d with
  | nil => rfl
  | cons x s ih =>
    by_cases h1 : x = ESC
    · subst h1
      rw [show escapeSpec (ESC :: s) = ESC :: ESC_ESC :: escapeSpec s
          from by simp [escapeSpec, escByte]]
      simp [wellEscaped, END, ESC, ESC_END, ESC_ESC, ih]
    · by_cases h2 : x = END
      · subst h2
        rw [show escapeSpec (END :: s) = ESC :: ESC_END :: escapeSpec s
            from by simp [escapeSpec, escByte, END, ESC]]
        simp [wellEscaped, END, ESC, ESC_END, ESC_ESC, ih]
      · rw [show escapeSpec (x :: s) = x :: escapeSpec s
            from by simp [escapeSpec, escByte, h1, h2]]
        rw [wellEscaped_cons_other x _ h2 h1, ih]

/-! ### Replicated-END lemmas -/

theorem split1_replicate (n : Nat) :
    split1 END (List.replicate n END) = List.replicate (n + 1) [] := by
  induction n with
  | zero => rfl
  | succ n ih => simp [List.replicate_succ, split1, ih]

theorem initSegs_replicate_nil (n : Nat) :
    initSegs (List.replicate (n + 1) ([] : List Nat)) = List.replicate n [] := by
  induction n with
  | zero => rfl
  | succ n ih =>
    rw [show List.replicate (n + 2) ([] : List Nat)
        = [] :: List.replicate (n + 1) [] from List.replicate_succ .. ,
      initSegs_cons_of_ne_nil _ _ (by simp), ih, List.replicate_succ]

theorem processFrames_replicate_nil (h : Handler) (n : Nat) :
    processFrames h (List.replicate n ([] : List Nat)) = [] := by
  induction n with
  | zero => rfl
  | succ n ih => simp [List.replicate_succ, processFrames, ih]

/-! ### Claim theorems -/

/-- C1: for every byte sequence `d`, unescaping (ESC+ESC_END -> END then
ESC+ESC_ESC -> ESC, as in the receive path) the escaped payload built by
`Enlace.enviar` (`d.replace(ESC, ESC+ESC_ESC).replace(END, ESC+ESC_END)`)
yields `d` again: decode(encode(d)) = d. -/
theorem round_trip_stuffing (d : List Nat) : desfazerStuffing (byteStuff d) = d :=
  desfazer_byteStuff d

/-- C2 counterexample: for the empty datagram the claim fails.  The frame
`Enlace.enviar [] = [END, END]`, delivered in one chunk to a fresh
`Enlace` with a handler registered, produces zero handler invocations,
not exactly one. -/
theorem fragmentation_empty_counterexample :
    concatChunks [[END, END]] = Enlace.enviar [] ∧
    (runRecv { callback := some okHandler, buffer := [] } [[END, END]]).2 = [] :=
  ⟨rfl, rfl⟩

/-- C2 (amended): for every nonempty byte sequence `d` and every way of
splitting `Enlace.enviar d` into chunks at any byte boundaries, feeding
the chunks in order to `raw_recv` of a fresh `Enlace` with a handler
registered yields exactly one handler invocation, with argument `d`. -/
theorem fragmentation_invariance (d : List Nat) (h : Handler) (cs : List (List Nat))
    (hd : d ≠ []) (hcs : concatChunks cs = Enlace.enviar d) :
    (runRecv { callback := some h, buffer := [] } cs).2.map Prod.fst = [d] := by
  rw [runRecv_eq h [] cs (by simp)]
  show (processFrames h (initSegs (split1 END ([] ++ concatChunks cs)))).map Prod.fst = [d]
  rw [List.nil_append, hcs, split1_enviar]
  rw [show initSegs [[], byteStuff d, []] = [[], byteStuff d] from rfl]
  have hbne : byteStuff d ≠ [] := by
    rw [byteStuff_eq_escapeSpec]
    exact escapeSpec_ne_nil d hd
  simp [processFrames, hbne, desfazer_byteStuff]

/-- Witness for C2: the spec's concrete example.  Datagram `01 C0 02`
encodes to `C0 01 DB DC 02 C0`; fed as the two chunks `C0 01 DB` and
`DC 02 C0` it is delivered exactly once. -/
theorem fragmentation_invariance_witness :
    ([0x01, 0xc0, 0x02] : List Nat) ≠ [] ∧
    concatChunks [[0xc0, 0x01, 0xdb], [0xdc, 0x02, 0xc0]] = Enlace.enviar [0x01, 0xc0, 0x02] ∧
    (runRecv { callback := some okHandler, buffer := [] }
        [[0xc0, 0x01, 0xdb], [0xdc, 0x02, 0xc0]]).2.map Prod.fst = [[0x01, 0xc0, 0x02]] :=
  ⟨by decide, by decide,
    fragmentation_invariance [0x01, 0xc0, 0x02] okHandler
      [[0xc0, 0x01, 0xdb], [0xdc, 0x02, 0xc0]] (by decide) (by decide)⟩

/-- C3 counterexample: for empty datagrams the claim fails.  Delivering
`Enlace.enviar [] ++ Enlace.enviar []` in one chunk produces zero
handler invocations, not exactly two. -/
theorem concatenation_empty_counterexample :
    (Enlace.raw_recv { callback := some okHandler, buffer := [] }
        (Enlace.enviar [] ++ Enlace.enviar [])).2 = [] := rfl

/-- C3 (amended): for all nonempty byte sequences `d1`, `d2`, delivering
`Enlace.enviar d1 ++ Enlace.enviar d2` in a single chunk to a fresh
`Enlace` with a handler registered produces exactly two handler
invocations, in left-to-right stream order: first `d1`, then `d2`. -/
theorem concatenation_in_order (d1 d2 : List Nat) (h : Handler)
    (h1 : d1 ≠ []) (h2 : d2 ≠ []) :
    (Enlace.raw_recv { callback := some h, buffer := [] }
        (Enlace.enviar d1 ++ Enlace.enviar d2)).2.map Prod.fst = [d1, d2] := by
  rw [raw_recv_some]
  show (processFrames h (initSegs (split1 END ([] ++ (Enlace.enviar d1 ++ Enlace.enviar d2))))).map Prod.fst = [d1, d2]
  rw [List.nil_append, split1_append END (Enlace.enviar d1) (Enlace.enviar d2),
    split1_enviar, split1_enviar]
  have hb1 : byteStuff d1 ≠ [] := by
    rw [byteStuff_eq_escapeSpec]; exact escapeSpec_ne_nil d1 h1
  have hb2 : byteStuff d2 ≠ [] := by
    rw [byteStuff_eq_escapeSpec]; exact escapeSpec_ne_nil d2 h2
  simp [initSegs, lastSeg, prependHead, processFrames, hb1, hb2, desfazer_byteStuff]

/-- Witness for C3: datagrams `01` and `02` concatenated in one chunk are
delivered as two datagrams, in order. -/
theorem concatenation_in_order_witness :
    ([0x01] : List Nat) ≠ [] ∧ ([0x02] : List Nat) ≠ [] ∧
    (Enlace.raw_recv { callback := some okHandler, buffer := [] }
        (Enlace.enviar [0x01] ++ Enlace.enviar [0x02])).2.map Prod.fst = [[0x01], [0x02]] :=
  ⟨by decide, by decide,
    concatenation_in_order [0x01] [0x02] okHandler (by decide) (by decide)⟩

/-- C4: the sequence of arguments delivered to the handler and the
resulting state of the `Enlace` do not depend on the handler's outcomes
(every exception is caught at the individual frame delivery and
processing continues), and after the call the buffer holds exactly the
trailing unterminated segment. -/
theorem handler_failure_isolated (h h' : Handler) (B dados : List Nat) :
    (Enlace.raw_recv { callback := some h, buffer := B } dados).2.map Prod.fst
      = (Enlace.raw_recv { callback := some h', buffer := B } dados).2.map Prod.fst ∧
    (Enlace.raw_recv { callback := some h, buffer := B } dados).1.buffer
      = (Enlace.raw_recv { callback := some h', buffer := B } dados).1.buffer ∧
    (Enlace.raw_recv { callback := some h, buffer := B } dados).1.buffer
      = lastSeg (split1 END (B ++ dados)) := by
  refine ⟨?_, rfl, rfl⟩
  rw [raw_recv_some, raw_recv_some]
  exact processFrames_map_fst h h' _

/-- C5: a chunk of `n ≥ 2` consecutive END bytes fed to a fresh `Enlace`
with a handler registered yields zero handler invocations, and the
chunk `C0 C0 C0 41 C0` yields exactly one delivery, the datagram `41`. -/
theorem empty_frame_suppression :
    (∀ (h : Handler) (n : Nat), 2 ≤ n →
      (Enlace.raw_recv { callback := some h, buffer := [] } (List.replicate n END)).2 = []) ∧
    (∀ h : Handler,
      (Enlace.raw_recv { callback := some h, buffer := [] }
          [END, END, END, 0x41, END]).2.map Prod.fst = [[0x41]]) := by
  constructor
  · intro h n _
    rw [raw_recv_some]
    show processFrames h (initSegs (split1 END ([] ++ List.replicate n END))) = []
    rw [List.nil_append, split1_replicate, initSegs_replicate_nil,
      processFrames_replicate_nil]
  · intro h
    rfl

/-- Witness for C5: two consecutive END bytes produce no delivery. -/
theorem empty_frame_suppression_witness :
    2 ≤ 2 ∧
    (Enlace.raw_recv { callback := some okHandler, buffer := [] }
        (List.replicate 2 END)).2 = [] :=
  ⟨by decide, empty_frame_suppression.1 okHandler 2 (by decide)⟩

/-- C6: `Enlace.enviar` hands the transport exactly `END ++ d' ++ END`,
where `d'` escapes every ESC to ESC+ESC_ESC and then every END to
ESC+ESC_END (rendered per byte by `escapeSpec`); the empty datagram
gives exactly the two-byte frame `[END, END]`. -/
theorem enviar_wire_format :
    (∀ d : List Nat, Enlace.enviar d = [END] ++ escapeSpec d ++ [END]) ∧
    Enlace.enviar [] = [END, END] := by
  constructor
  · intro d
    show [END] ++ byteStuff d ++ [END] = [END] ++ escapeSpec d ++ [END]
    rw [byteStuff_eq_escapeSpec]
  · rfl

/-- C7 counterexample: the frame body for the datagram `[ESC_END]` is
`[ESC_END]` itself — the encoder does not escape a literal ESC_END
byte, so the body contains an ESC_END occurrence that is not preceded
by any ESC byte, contradicting the claim as stated. -/
theorem unescaped_escEnd_counterexample :
    Enlace.enviar [ESC_END] = [END, ESC_END, END] ∧
    byteStuff [ESC_END] = [ESC_END] ∧
    hasUnescaped ESC_END (byteStuff [ESC_END]) = true := by decide

/-- C7 (amended): in the frame body produced by the encoder, END never
occurs and every ESC is immediately followed by ESC_END or ESC_ESC
(so every escape sequence the encoder introduces is well formed);
however, a literal ESC_END or ESC_ESC byte of the datagram is copied
unchanged and may appear in the body without a preceding ESC. -/
theorem frame_body_well_escaped (d : List Nat) : wellEscaped (byteStuff d) = true := by
  rw [byteStuff_eq_escapeSpec]
  exact wellEscaped_escapeSpec d

/-- C8: when no handler is registered, `raw_recv` is a no-op: nothing is
buffered, nothing is delivered, and the whole `Enlace` state is
unchanged. -/
theorem raw_recv_without_handler (E : Enlace) (dados : List Nat)
    (h : E.callback = none) : Enlace.raw_recv E dados = (E, []) := by
  unfold Enlace.raw_recv
  rw [h]

/-- Witness for C8: a concrete `Enlace` with no callback and a nonempty
buffer is untouched by a chunk. -/
theorem raw_recv_without_handler_witness :
    (Enlace.mk none [0x01]).callback = none ∧
    Enlace.raw_recv (Enlace.mk none [0x01]) [0x02] = (Enlace.mk none [0x01], []) :=
  ⟨rfl, raw_recv_without_handler (Enlace.mk none [0x01]) [0x02] rfl⟩

/-- C9: `CamadaEnlace.enviar` for an address absent from the mapping
fails with the `KeyError` of the dictionary lookup, hands nothing to
any transport, and leaves the whole multiplexer state (the mapping and
every `Enlace` in it) unchanged. -/
theorem camada_enviar_unknown_hop (C : CamadaEnlace) (d : List Nat) (a : String)
    (h : C.enlaces.lookup a = none) :
    CamadaEnlace.enviar C d a = (C, Except.error "KeyError") := by
  unfold CamadaEnlace.enviar
  rw [h]

/-- Witness for C9: a multiplexer configured with peer `1.2.3.4` fails
to send to `5.6.7.8`. -/
theorem camada_enviar_unknown_hop_witness :
    (CamadaEnlace.mk [("1.2.3.4", Enlace.init)] none).enlaces.lookup "5.6.7.8" = none ∧
    CamadaEnlace.enviar (CamadaEnlace.mk [("1.2.3.4", Enlace.init)] none) [0x01] "5.6.7.8"
      = (CamadaEnlace.mk [("1.2.3.4", Enlace.init)] none, Except.error "KeyError") :=
  ⟨rfl, camada_enviar_unknown_hop (CamadaEnlace.mk [("1.2.3.4", Enlace.init)] none)
    [0x01] "5.6.7.8" rfl⟩

/-- C10: starting from the initial empty buffer, after any sequence of
completed `raw_recv` calls the buffer never contains an END byte
(with or without a registered handler, and whatever the handler's
outcomes); with a handler registered it is exactly the suffix of the
processed stream strictly after the last END seen, or the accumulated
bytes when no END occurred. -/
theorem buffer_invariant :
    (∀ (cb : Option Handler) (cs : List (List Nat)),
      END ∉ (runRecv { callback := cb, buffer := [] } cs).1.buffer) ∧
    (∀ (h : Handler) (cs : List (List Nat)),
      (runRecv { callback := some h, buffer := [] } cs).1.buffer
        = suffixAfterLast END (concatChunks cs)) := by
  have key : ∀ (h : Handler) (cs : List (List Nat)),
      (runRecv { callback := some h, buffer := [] } cs).1.buffer
        = suffixAfterLast END (concatChunks cs) := by
    intro h cs
    rw [runRecv_eq h [] cs (by simp)]
    show lastSeg (split1 END ([] ++ concatChunks cs)) = _
    rw [List.nil_append, lastSeg_split1]
  constructor
  · intro cb cs
    cases cb with
    | none => rw [runRecv_none]; simp
    | some h =>
      rw [key h cs, ← lastSeg_split1]
      exact not_mem_of_mem_split1 END _ _ (lastSeg_mem _ (split1_ne_nil _ _))
  · exact key
